import Mathlib

/-!
Verification development for the `files-to-prompt` tool (`src/main.cpp`).

Strings from the C++ program are modelled as `List Char`.  The filesystem,
which the program accesses through `std::filesystem` and `fopen`, is
modelled as a structure of total functions (`FS`).  Each C++ function of
`src/main.cpp` is translated into a Lean function of the same name; the
one piece of mutable state (`print_path`'s `static int global_index`) is
threaded explicitly, and the byte stream written through `FILE* writer`
is represented as a list of output items (`OutItem`) whose rendering
(`renderItem`) reproduces the exact `fprintf` format strings.
-/

/-- Model of the external libc primitive `fnmatch(3)` called with
`flags = 0` (the only way `src/main.cpp` calls it): shell glob semantics
with `*`, `?`, `[...]` (ranges, leading `!`/`^` negation, leading `]`
literal, unterminated `[` literal) and `\` escaping; `/` and a leading
`.` are ordinary characters.  Items of a bracket expression, parsed as
closed ranges; an unterminated expression yields `none`. -/
def classItems : List Char → Option (List (Char × Char) × List Char)
  | [] => none
  | ']' :: rest => some ([], rest)
  | a :: '-' :: b :: rest =>
    if b = ']' then some ([(a, a), ('-', '-')], rest)
    else (classItems rest).map (fun pr => ((a, b) :: pr.1, pr.2))
  | a :: rest => (classItems rest).map (fun pr => ((a, a) :: pr.1, pr.2))

/-- Parse a full bracket expression (the pattern after `[`): optional
negation, then items; a `]` right after the (possible) negation is a
literal member. -/
def parseClassFull (p : List Char) : Option (Bool × List (Char × Char) × List Char) :=
  match p with
  | '!' :: rest =>
    match rest with
    | ']' :: rest2 => (classItems rest2).map (fun pr => (true, (']', ']') :: pr.1, pr.2))
    | _ => (classItems rest).map (fun pr => (true, pr.1, pr.2))
  | '^' :: rest =>
    match rest with
    | ']' :: rest2 => (classItems rest2).map (fun pr => (true, (']', ']') :: pr.1, pr.2))
    | _ => (classItems rest).map (fun pr => (true, pr.1, pr.2))
  | ']' :: rest2 => (classItems rest2).map (fun pr => (false, (']', ']') :: pr.1, pr.2))
  | _ => (classItems p).map (fun pr => (false, pr.1, pr.2))

/-- Fueled glob matcher: `globAux fuel pattern string`.  Every recursive
call strictly decreases `pattern.length + string.length`, so fuel equal
to that sum suffices (see `globMatch`). -/
def globAux : Nat → List Char → List Char → Bool
  | 0, p, s => p.isEmpty && s.isEmpty
  | _ + 1, [], s => s.isEmpty
  | fuel + 1, '*' :: p, s =>
    globAux fuel p s ||
      (match s with
       | [] => false
       | _ :: s' => globAux fuel ('*' :: p) s')
  | fuel + 1, '?' :: p, s =>
    (match s with
     | [] => false
     | _ :: s' => globAux fuel p s')
  | fuel + 1, '[' :: p, s =>
    (match s with
     | [] => false
     | c :: s' =>
       match parseClassFull p with
       | some (neg, ranges, rest) =>
         if (ranges.any (fun r => decide (r.1 ≤ c) && decide (c ≤ r.2))) != neg then
           globAux fuel rest s'
         else false
       | none => if c = '[' then globAux fuel p s' else false)
  | fuel + 1, '\\' :: p, s =>
    (match p with
     | [] => false
     | ch :: p' =>
       match s with
       | [] => false
       | c :: s' => c == ch && globAux fuel p' s')
  | fuel + 1, ch :: p, s =>
    (match s with
     | [] => false
     | c :: s' => c == ch && globAux fuel p s')

/-- `globMatch pattern s` models `fnmatch(pattern, s, 0) == 0`. -/
def globMatch (p s : List Char) : Bool :=
  globAux (p.length + s.length) p s

/-- The filesystem as seen by the program: the `std::filesystem` queries
it performs, the recursive directory enumeration (which yields every
descendant entry, directories included, in native order), and whole-file
reads (`none` models an `fopen` failure). -/
structure FS where
  isDir : List Char → Bool
  isFile : List Char → Bool
  pathExists : List Char → Bool
  walk : List Char → List (List Char)
  readFile : List Char → Option (List Char)

/-- `fs::path(p).filename()`: the component after the last `/`. -/
def basename (p : List Char) : List Char :=
  (p.reverse.takeWhile (fun c => c ≠ '/')).reverse

/-- `fs::path(p).parent_path().string()`: the part before the last `/`
(`"/"` when only a leading slash remains), and `""` for a path with no
`/` at all (such as the default root `"."` or a bare filename). -/
def parentPath (p : List Char) : List Char :=
  if p.contains '/' then
    if ((p.reverse.dropWhile (fun c => c ≠ '/')).drop 1).reverse.isEmpty then ['/']
    else ((p.reverse.dropWhile (fun c => c ≠ '/')).drop 1).reverse
  else []

/-- `should_ignore` from `src/main.cpp` (lines 26-39): for each rule it
first tests `fnmatch(rule, basename, 0)`, and then, when the path is a
directory, `fnmatch(basename + "/", rule, 0)` — in this second call the
code passes `basename + "/"` as the fnmatch PATTERN and the rule as the
string being matched. -/
def should_ignore (fs : FS) (path : List Char) (gitignore_rules : List (List Char)) : Bool :=
  gitignore_rules.any (fun rule =>
    globMatch rule (basename path) ||
      (fs.isDir path && globMatch (basename path ++ ['/']) rule))

/-- The suffix `"/.gitignore"` appended to the parent path in
`read_gitignore` (line 43 of `src/main.cpp`). -/
def gitignoreName : List Char := '/' :: '.' :: 'g' :: 'i' :: 't' :: 'i' :: 'g' :: 'n' :: 'o' :: 'r' :: 'e' :: []

/-- `line[strcspn(line, "\r\n")] = 0`: keep the characters before the
first carriage return or newline. -/
def stripLine (l : List Char) : List Char :=
  l.takeWhile (fun c => c ≠ '\r' && c ≠ '\n')

/-- Prepend a character to the first piece of a non-empty piece list. -/
def consHead (c : Char) : List (List Char) → List (List Char)
  | [] => [[c]]
  | p :: ps => (c :: p) :: ps

/-- The chunks `getline` yields from a file's content (each maximal piece
delimited by `'\n'`, with the terminator removed; a trailing newline does
not produce an extra empty chunk, and an empty file yields no chunks). -/
def splitLines : List Char → List (List Char)
  | [] => []
  | c :: rest => if c = '\n' then [] :: splitLines rest else consHead c (splitLines rest)

/-- The loop body of `read_gitignore` (lines 47-54): a stripped line is
stored as a rule exactly when `strlen(line) > 0 && line[0] != '#'`. -/
def gitignoreFilter : List (List Char) → List (List Char)
  | [] => []
  | l :: rest =>
    match stripLine l with
    | [] => gitignoreFilter rest
    | c :: cs => if c = '#' then gitignoreFilter rest else (c :: cs) :: gitignoreFilter rest

/-- Rules obtained from the content of an opened gitignore file; a
missing file (failed `fopen`) yields no rules. -/
def parseGitignore : Option (List Char) → List (List Char)
  | some content => gitignoreFilter (splitLines content)
  | none => []

/-- `read_gitignore` from `src/main.cpp` (lines 41-58): open
`path + "/.gitignore"` and collect its rules. -/
def read_gitignore (fs : FS) (path : List Char) : List (List Char) :=
  parseGitignore (fs.readFile (path ++ gitignoreName))

/-- One unit of output written through `writer`: the two XML envelope
tags and the two document renderings of `print_path`. -/
inductive OutItem where
  | openTag : OutItem
  | closeTag : OutItem
  | xmlDoc : Nat → List Char → List Char → OutItem
  | plainDoc : List Char → List Char → OutItem
deriving DecidableEq, Repr

/-- The plain-mode delimiter `"\n---\n"`. -/
def delim : List Char := '\n' :: '-' :: '-' :: '-' :: '\n' :: []

/-- Decimal rendering of the document index (`fprintf` `%d`). -/
def natToChars (n : Nat) : List Char := (Nat.repr n).toList

/-- The exact bytes each output item contributes, following the
`fprintf` format strings of `print_path` and `main`. -/
def renderItem : OutItem → List Char
  | OutItem.openTag => ('<' :: 'd' :: 'o' :: 'c' :: 'u' :: 'm' :: 'e' :: 'n' :: 't' :: 's' :: '>' :: '\n' :: [])
  | OutItem.closeTag => ('<' :: '/' :: 'd' :: 'o' :: 'c' :: 'u' :: 'm' :: 'e' :: 'n' :: 't' :: 's' :: '>' :: '\n' :: [])
  | OutItem.xmlDoc i p c =>
    "<document index=\"".toList ++ natToChars i ++ "\">\n".toList ++
      "<source>".toList ++ p ++ "</source>\n".toList ++
      "<document_content>\n".toList ++ c ++ "\n</document_content>\n".toList ++
      "</document>\n".toList
  | OutItem.plainDoc p c => p ++ delim ++ c ++ delim

/-- Concatenated rendering of an output stream. -/
def renderItems : List OutItem → List Char
  | [] => []
  | x :: rest => renderItem x ++ renderItems rest

/-- `print_path` (lines 60-75): the `static int global_index` becomes an
explicit counter, incremented only on the XML branch. -/
def print_path (idx : Nat) (path content : List Char) (xml : Bool) : OutItem × Nat :=
  if xml then (OutItem.xmlDoc idx path content, idx + 1)
  else (OutItem.plainDoc path content, idx)

/-- `read_file_content` (lines 77-91): a failed open produces a warning
on stderr (not modelled) and the empty content. -/
def read_file_content (fs : FS) (path : List Char) : List Char :=
  (fs.readFile path).getD []

/-- `filename[0] == '.'` — on an empty `std::string`, `operator[]`
yields `'\0'`, which is not `'.'`. -/
def isHidden : List Char → Bool
  | '.' :: _ => true
  | _ => false

/-- `should_ignore_file` (lines 93-119): hidden check, explicit ignore
patterns via `fnmatch(pattern, filename, 0)`, then the extension
allow-list via literal case-sensitive suffix comparison. -/
def should_ignore_file (filename : List Char) (ignore_patterns extensions : List (List Char))
    (include_hidden : Bool) : Bool :=
  if !include_hidden && isHidden filename then true
  else if ignore_patterns.any (fun pat => globMatch pat filename) then true
  else if !extensions.isEmpty then !(extensions.any (fun ext => ext.isSuffixOf filename))
  else false

/-- `process_file` (lines 121-128): read, and print only non-empty
content. -/
def process_file (fs : FS) (idx : Nat) (path : List Char) (xml : Bool) : List OutItem × Nat :=
  if (read_file_content fs path).isEmpty then ([], idx)
  else ([(print_path idx path (read_file_content fs path) xml).1],
        (print_path idx path (read_file_content fs path) xml).2)

/-- The loop body of `process_directory` (lines 138-152) over the list of
enumerated entries: skip directories, then `should_ignore_file`, then
(unless gitignore honoring is off) `should_ignore`, else process. -/
def processEntries (fs : FS) (extensions : List (List Char)) (include_hidden ignore_gitignore : Bool)
    (gitignore_rules ignore_patterns : List (List Char)) (xml : Bool) :
    List (List Char) → Nat → List OutItem × Nat
  | [], idx => ([], idx)
  | e :: es, idx =>
    if fs.isDir e then
      processEntries fs extensions include_hidden ignore_gitignore gitignore_rules ignore_patterns xml es idx
    else if should_ignore_file (basename e) ignore_patterns extensions include_hidden then
      processEntries fs extensions include_hidden ignore_gitignore gitignore_rules ignore_patterns xml es idx
    else if !ignore_gitignore && should_ignore fs e gitignore_rules then
      processEntries fs extensions include_hidden ignore_gitignore gitignore_rules ignore_patterns xml es idx
    else
      ((process_file fs idx e xml).1 ++
         (processEntries fs extensions include_hidden ignore_gitignore gitignore_rules ignore_patterns xml es
            (process_file fs idx e xml).2).1,
       (processEntries fs extensions include_hidden ignore_gitignore gitignore_rules ignore_patterns xml es
          (process_file fs idx e xml).2).2)

/-- `process_directory` (lines 130-153): iterate the recursive
enumeration of `path`. -/
def process_directory (fs : FS) (idx : Nat) (path : List Char) (extensions : List (List Char))
    (include_hidden ignore_gitignore : Bool) (gitignore_rules ignore_patterns : List (List Char))
    (xml : Bool) : List OutItem × Nat :=
  processEntries fs extensions include_hidden ignore_gitignore gitignore_rules ignore_patterns xml
    (fs.walk path) idx

/-- `process_path` (lines 155-169): a regular file goes straight to
`process_file`; a directory is enumerated and filtered. -/
def process_path (fs : FS) (idx : Nat) (path : List Char) (extensions : List (List Char))
    (include_hidden ignore_gitignore : Bool) (gitignore_rules ignore_patterns : List (List Char))
    (xml : Bool) : List OutItem × Nat :=
  if fs.isFile path then process_file fs idx path xml
  else if fs.isDir path then
    process_directory fs idx path extensions include_hidden ignore_gitignore gitignore_rules
      ignore_patterns xml
  else ([], idx)

/-- The root loop of `main` (lines 224-241), with `first` the fixed
`paths[0]` compared (by string equality) against each root.  Returns the
output stream written so far, the final index counter and the exit code:
a non-existent root aborts with status 1 before the closing tag. -/
def mainLoop (fs : FS) (first : List Char) (extensions : List (List Char))
    (include_hidden ignore_gitignore xml : Bool) (ignore_patterns : List (List Char)) :
    List (List Char) → List (List Char) → Nat → List OutItem × Nat × Nat
  | [], _, idx => (if xml then [OutItem.closeTag] else [], idx, 0)
  | p :: rest, rules, idx =>
    if fs.pathExists p then
      ((if xml && p == first then [OutItem.openTag] else []) ++
         (process_path fs idx p extensions include_hidden ignore_gitignore
            (if !ignore_gitignore then rules ++ read_gitignore fs (parentPath p) else rules)
            ignore_patterns xml).1 ++
         (mainLoop fs first extensions include_hidden ignore_gitignore xml ignore_patterns rest
            (if !ignore_gitignore then rules ++ read_gitignore fs (parentPath p) else rules)
            (process_path fs idx p extensions include_hidden ignore_gitignore
               (if !ignore_gitignore then rules ++ read_gitignore fs (parentPath p) else rules)
               ignore_patterns xml).2).1,
       (mainLoop fs first extensions include_hidden ignore_gitignore xml ignore_patterns rest
          (if !ignore_gitignore then rules ++ read_gitignore fs (parentPath p) else rules)
          (process_path fs idx p extensions include_hidden ignore_gitignore
             (if !ignore_gitignore then rules ++ read_gitignore fs (parentPath p) else rules)
             ignore_patterns xml).2).2)
    else ([], idx, 1)

/-- `main` after option parsing (lines 204-244): default root `"."`,
empty initial rule set, index counter starting at 1. -/
def filesToPrompt (fs : FS) (paths : List (List Char)) (extensions ignore_patterns : List (List Char))
    (include_hidden ignore_gitignore xml : Bool) : List OutItem × Nat × Nat :=
  mainLoop fs ((if paths.isEmpty then [['.']] else paths).headD []) extensions include_hidden
    ignore_gitignore xml ignore_patterns (if paths.isEmpty then [['.']] else paths) [] 1

/-- The possible output sinks of a run. -/
inductive Sink where
  | stdout : Sink
  | file : Sink
deriving DecidableEq, Repr

/-- The output-sink setup of `main` (lines 216-222): `writer` defaults to
stdout and is replaced by the result of `fopen(output_file, "w")` when a
named output file was requested — `none` models a failed open.  The
second component records whether `main` aborts before processing; the
code has no check of the `fopen` result and no abort path here, so it is
always `false`. -/
def setupWriter (output_file : List Char) (fopenResult : Option Sink) : Option Sink × Bool :=
  (if output_file.isEmpty then some Sink.stdout else fopenResult, false)

def splitAux : Nat → List Char → List (List Char)
  | _, [] => [[]]
  | 0, s => [s]
  | fuel + 1, c :: rest =>
    if delim.isPrefixOf (c :: rest) then [] :: splitAux fuel ((c :: rest).drop delim.length)
    else consHead c (splitAux fuel rest)

def splitOnDelim (s : List Char) : List (List Char) := splitAux s.length s


lemma splitAux_fuel : ∀ (f1 f2 : Nat) (s : List Char), s.length ≤ f1 → s.length ≤ f2 →
    splitAux f1 s = splitAux f2 s := by
  intro f1
  induction f1 with
  | zero =>
    intro f2 s h1 _
    have hs : s = [] := List.eq_nil_of_length_eq_zero (Nat.le_zero.mp h1)
    subst hs
    cases f2 <;> rfl
  | succ g ih =>
    intro f2 s h1 h2
    cases s with
    | nil => cases f2 <;> rfl
    | cons c rest =>
      cases f2 with
      | zero => simp at h2
      | succ g2 =>
        simp only [splitAux]
        by_cases hp : delim.isPrefixOf (c :: rest) = true
        · rw [if_pos hp, if_pos hp]
          have hc : (c :: rest).length = rest.length + 1 := List.length_cons c rest
          have h1' : rest.length + 1 ≤ g + 1 := by rw [hc] at h1; exact h1
          have h2' : rest.length + 1 ≤ g2 + 1 := by rw [hc] at h2; exact h2
          have hd : ((c :: rest).drop delim.length).length ≤ g := by
            rw [List.length_drop, hc, show delim.length = 5 from rfl]; omega
          have hd2 : ((c :: rest).drop delim.length).length ≤ g2 := by
            rw [List.length_drop, hc, show delim.length = 5 from rfl]; omega
          rw [ih _ _ hd hd2]
        · rw [if_neg hp, if_neg hp]
          have hc : (c :: rest).length = rest.length + 1 := List.length_cons c rest
          have hd : rest.length ≤ g := by rw [hc] at h1; omega
          have hd2 : rest.length ≤ g2 := by rw [hc] at h2; omega
          rw [ih _ _ hd hd2]

def delim4 : List Char := '\n' :: '-' :: '-' :: '-' :: []

def goodPiece (t : List Char) : Prop := ¬ delim <:+: t ∧ ¬ delim4 <:+ t

instance goodPieceDec (t : List Char) : Decidable (goodPiece t) :=
  inferInstanceAs (Decidable (¬ delim <:+: t ∧ ¬ delim4 <:+ t))

lemma goodPiece_not_prefix {t : List Char} (hg : goodPiece t) (hne : t ≠ []) (r : List Char) :
    ¬ delim <+: (t ++ (delim ++ r)) := by
  intro hp
  obtain ⟨u, hu⟩ := hp
  rcases Nat.lt_or_ge t.length 5 with hlt | hge
  · have hlen1 : 0 < t.length := List.length_pos.mpr hne
    have htake : t = delim.take t.length := by
      have h1 := congrArg (List.take t.length) hu
      rw [List.take_left] at h1
      rw [List.take_append_of_le_length (by rw [show delim.length = 5 from rfl]; omega)] at h1
      exact h1.symm
    have hdelim : delim = t ++ delim.take (5 - t.length) := by
      have h2 := congrArg (List.take 5) hu
      rw [List.take_left' (show delim.length = 5 from rfl)] at h2
      rw [List.take_append_eq_append_take] at h2
      rw [List.take_of_length_le (le_of_lt hlt)] at h2
      rw [List.take_append_of_le_length (by rw [show delim.length = 5 from rfl]; omega)] at h2
      exact h2
    have hcases : t.length = 1 ∨ t.length = 2 ∨ t.length = 3 ∨ t.length = 4 := by omega
    rcases hcases with h | h | h | h
    · rw [h] at htake hdelim
      rw [htake] at hdelim
      exact absurd hdelim (by decide)
    · rw [h] at htake hdelim
      rw [htake] at hdelim
      exact absurd hdelim (by decide)
    · rw [h] at htake hdelim
      rw [htake] at hdelim
      exact absurd hdelim (by decide)
    · rw [h] at htake
      exact hg.2 (by rw [htake]; decide)
  · have hpre : delim <+: t := by
      have h2 := congrArg (List.take 5) hu
      rw [List.take_left' (show delim.length = 5 from rfl)] at h2
      rw [List.take_append_of_le_length hge] at h2
      rw [h2]
      exact List.take_prefix 5 t
    exact hg.1 hpre.isInfix

lemma goodPiece_tail {c : Char} {t : List Char} (hg : goodPiece (c :: t)) : goodPiece t := by
  constructor
  · intro h; exact hg.1 (List.infix_cons h)
  · intro h; exact hg.2 (h.trans (List.suffix_cons c t))

lemma splitAux_block (t : List Char) : ∀ (r : List Char) (fuel : Nat),
    (t ++ (delim ++ r)).length ≤ fuel → goodPiece t →
    splitAux fuel (t ++ (delim ++ r)) = t :: splitAux r.length r := by
  induction t with
  | nil =>
    intro r fuel hf hg
    simp only [List.nil_append]
    cases fuel with
    | zero => simp [delim] at hf
    | succ g =>
      have hd : delim ++ r = '\n' :: ('-' :: '-' :: '-' :: '\n' :: r) := rfl
      rw [hd]
      simp only [splitAux]
      have hpre : delim.isPrefixOf ('\n' :: ('-' :: '-' :: '-' :: '\n' :: r)) = true := by
        rw [show ('\n' :: ('-' :: '-' :: '-' :: '\n' :: r)) = delim ++ r from rfl]
        simp only [List.isPrefixOf_iff_prefix]
        exact List.prefix_append _ _
      rw [if_pos hpre]
      rw [show ('\n' :: ('-' :: '-' :: '-' :: '\n' :: r)) = delim ++ r from rfl]
      rw [List.drop_left]
      have hr : r.length ≤ g := by
        simp [delim] at hf; omega
      rw [splitAux_fuel g r.length r hr le_rfl]
  | cons c t' ih =>
    intro r fuel hf hg
    cases fuel with
    | zero => simp at hf
    | succ g =>
      rw [show (c :: t') ++ (delim ++ r) = c :: (t' ++ (delim ++ r)) from rfl]
      simp only [splitAux]
      have hnp : ¬ (delim.isPrefixOf (c :: (t' ++ (delim ++ r))) = true) := by
        intro hb
        rw [List.isPrefixOf_iff_prefix] at hb
        exact goodPiece_not_prefix hg (by simp) r hb
      rw [if_neg hnp]
      have ht' : splitAux g (t' ++ (delim ++ r)) = t' :: splitAux r.length r :=
        ih r g (by simp at hf ⊢; omega) (goodPiece_tail hg)
      rw [ht']
      rfl

lemma splitOnDelim_block (t r : List Char) (hg : goodPiece t) :
    splitOnDelim (t ++ (delim ++ r)) = t :: splitOnDelim r := by
  unfold splitOnDelim
  exact splitAux_block t r _ le_rfl hg

/-- The (path, content) pairs of the plain documents of an output stream,
in emission order. -/
def docsOf : List OutItem → List (List Char × List Char)
  | [] => []
  | OutItem.plainDoc p c :: rest => (p, c) :: docsOf rest
  | _ :: rest => docsOf rest

/-- Concatenated plain-mode blocks of a document list. -/
def renderDocs : List (List Char × List Char) → List Char
  | [] => []
  | pc :: rest => pc.1 ++ (delim ++ (pc.2 ++ (delim ++ renderDocs rest)))

/-- Path and content of each document, alternating, in emission order. -/
def interleaveDocs : List (List Char × List Char) → List (List Char)
  | [] => []
  | pc :: rest => pc.1 :: pc.2 :: interleaveDocs rest

lemma process_file_plain (fs : FS) (idx : Nat) (p : List Char) :
    ∀ x ∈ (process_file fs idx p false).1, ∃ a b, x = OutItem.plainDoc a b := by
  intro x hx
  unfold process_file at hx
  by_cases h : (read_file_content fs p).isEmpty
  · rw [if_pos h] at hx; simp at hx
  · rw [if_neg h] at hx
    simp [print_path] at hx
    exact ⟨p, read_file_content fs p, hx⟩

lemma processEntries_plain (fs : FS) (ext : List (List Char)) (ih ig : Bool)
    (rules ipat : List (List Char)) :
    ∀ (es : List (List Char)) (idx : Nat) (x : OutItem),
      x ∈ (processEntries fs ext ih ig rules ipat false es idx).1 →
      ∃ a b, x = OutItem.plainDoc a b := by
  intro es
  induction es with
  | nil => intro idx x hx; simp [processEntries] at hx
  | cons e es ihe =>
    intro idx x hx
    unfold processEntries at hx
    by_cases h1 : fs.isDir e = true
    · rw [if_pos h1] at hx; exact ihe _ _ hx
    · rw [if_neg h1] at hx
      by_cases h2 : should_ignore_file (basename e) ipat ext ih = true
      · rw [if_pos h2] at hx; exact ihe _ _ hx
      · rw [if_neg h2] at hx
        by_cases h3 : (!ig && should_ignore fs e rules) = true
        · rw [if_pos h3] at hx; exact ihe _ _ hx
        · rw [if_neg h3] at hx
          rcases List.mem_append.mp hx with hx' | hx'
          · exact process_file_plain fs idx e x hx'
          · exact ihe _ _ hx'

lemma process_path_plain (fs : FS) (idx : Nat) (p : List Char) (ext : List (List Char))
    (ih ig : Bool) (rules ipat : List (List Char)) :
    ∀ x ∈ (process_path fs idx p ext ih ig rules ipat false).1,
      ∃ a b, x = OutItem.plainDoc a b := by
  intro x hx
  unfold process_path at hx
  by_cases h1 : fs.isFile p = true
  · rw [if_pos h1] at hx; exact process_file_plain fs idx p x hx
  · rw [if_neg h1] at hx
    by_cases h2 : fs.isDir p = true
    · rw [if_pos h2] at hx
      unfold process_directory at hx
      exact processEntries_plain fs ext ih ig rules ipat _ _ x hx
    · rw [if_neg h2] at hx; simp at hx

lemma mainLoop_plain (fs : FS) (first : List Char) (ext : List (List Char)) (ih ig : Bool)
    (ipat : List (List Char)) :
    ∀ (ps rules : List (List Char)) (idx : Nat) (x : OutItem),
      x ∈ (mainLoop fs first ext ih ig false ipat ps rules idx).1 →
      ∃ a b, x = OutItem.plainDoc a b := by
  intro ps
  induction ps with
  | nil => intro rules idx x hx; simp [mainLoop] at hx
  | cons p rest ihp =>
    intro rules idx x hx
    unfold mainLoop at hx
    by_cases h1 : fs.pathExists p = true
    · rw [if_pos h1] at hx
      simp only [Bool.false_and, List.mem_append] at hx
      rcases hx with (hx' | hx') | hx'
      · simp at hx'
      · exact process_path_plain fs _ p ext ih ig _ ipat x hx'
      · exact ihp _ _ _ hx'
    · rw [if_neg h1] at hx; simp at hx

lemma renderItems_plain : ∀ (items : List OutItem),
    (∀ x ∈ items, ∃ a b, x = OutItem.plainDoc a b) →
    renderItems items = renderDocs (docsOf items) := by
  intro items
  induction items with
  | nil => intro _; rfl
  | cons x rest ihx =>
    intro h
    obtain ⟨a, b, hx⟩ := h x (List.mem_cons_self x rest)
    subst hx
    have hr := ihx (fun y hy => h y (List.mem_cons_of_mem _ hy))
    show renderItem (OutItem.plainDoc a b) ++ renderItems rest =
      renderDocs ((a, b) :: docsOf rest)
    rw [hr]
    show a ++ delim ++ b ++ delim ++ renderDocs (docsOf rest) =
      a ++ (delim ++ (b ++ (delim ++ renderDocs (docsOf rest))))
    simp [List.append_assoc]

lemma splitOnDelim_renderDocs : ∀ (docs : List (List Char × List Char)),
    (∀ pc ∈ docs, goodPiece pc.1 ∧ goodPiece pc.2) →
    splitOnDelim (renderDocs docs) = interleaveDocs docs ++ [[]] := by
  intro docs
  induction docs with
  | nil => intro _; rfl
  | cons pc rest ihd =>
    intro h
    have h1 := h pc (List.mem_cons_self pc rest)
    have hr := ihd (fun y hy => h y (List.mem_cons_of_mem _ hy))
    show splitOnDelim (pc.1 ++ (delim ++ (pc.2 ++ (delim ++ renderDocs rest)))) = _
    rw [splitOnDelim_block _ _ h1.1]
    rw [splitOnDelim_block _ _ h1.2]
    rw [hr]
    rfl

/-- Filesystem exhibiting a plain-mode file whose content contains the
delimiter. -/
def fsC8a : FS where
  isDir := fun _ => false
  isFile := fun p => p == "f".toList
  pathExists := fun _ => true
  walk := fun _ => []
  readFile := fun p => if p == "f".toList then some "A\n---\nB".toList else none

/-- Claim C8 counterexample: with a single emitted file of content
"A\n---\nB", splitting the plain output on "\n---\n" yields the pieces
"f", "A", "B", "" and so does not recover the file's exact content. -/
theorem plain_roundtrip_cex :
    (filesToPrompt fsC8a ["f".toList] [] [] false true false).1 =
        [OutItem.plainDoc "f".toList "A\n---\nB".toList]
      ∧ splitOnDelim (renderItems (filesToPrompt fsC8a ["f".toList] [] [] false true false).1) =
        ["f".toList, "A".toList, "B".toList, []]
      ∧ splitOnDelim (renderItems (filesToPrompt fsC8a ["f".toList] [] [] false true false).1) ≠
        ["f".toList, "A\n---\nB".toList, []] := by
  refine ⟨by decide, by decide, by decide⟩

/-- Claim C8 (amended): for every run in plain mode in which no emitted
path or content contains the delimiter "\n---\n" or ends with "\n---"
(`goodPiece`), splitting the complete output on the literal delimiter
"\n---\n" recovers, for each emitted file in emission order, its path
followed by its exact original content (plus the final empty piece left
by the trailing delimiter). -/
theorem plain_roundtrip (fs : FS) (paths ext ipat : List (List Char)) (ih ig : Bool)
    (hg : ∀ pc ∈ docsOf (filesToPrompt fs paths ext ipat ih ig false).1,
      goodPiece pc.1 ∧ goodPiece pc.2) :
    splitOnDelim (renderItems (filesToPrompt fs paths ext ipat ih ig false).1) =
      interleaveDocs (docsOf (filesToPrompt fs paths ext ipat ih ig false).1) ++ [[]] := by
  have hplain : ∀ x ∈ (filesToPrompt fs paths ext ipat ih ig false).1,
      ∃ a b, x = OutItem.plainDoc a b := by
    intro x hx
    unfold filesToPrompt at hx
    exact mainLoop_plain fs _ ext ih ig ipat _ _ _ x hx
  rw [renderItems_plain _ hplain]
  exact splitOnDelim_renderDocs _ hg

/-- Filesystem with a single well-behaved plain-mode file. -/
def fsC8w : FS where
  isDir := fun _ => false
  isFile := fun p => p == "f".toList
  pathExists := fun _ => true
  walk := fun _ => []
  readFile := fun p => if p == "f".toList then some "hi".toList else none

theorem plain_roundtrip_witness :
    (∀ pc ∈ docsOf (filesToPrompt fsC8w ["f".toList] [] [] false true false).1,
      goodPiece pc.1 ∧ goodPiece pc.2)
    ∧ splitOnDelim (renderItems (filesToPrompt fsC8w ["f".toList] [] [] false true false).1) =
      interleaveDocs (docsOf (filesToPrompt fsC8w ["f".toList] [] [] false true false).1) ++ [[]] :=
  ⟨by decide, plain_roundtrip fsC8w ["f".toList] [] [] false true (by decide)⟩

/-- Filesystem in which "build" is a directory. -/
def fsC2 : FS where
  isDir := fun p => p == "build".toList
  isFile := fun _ => false
  pathExists := fun _ => true
  walk := fun _ => []
  readFile := fun _ => none

/-- Matcher following the spec's words for comparison with the source's
`should_ignore`: in case (b) the rule P is the glob pattern and
basename + "/" the string being matched. -/
def should_ignore_spec (fs : FS) (path : List Char) (gitignore_rules : List (List Char)) : Bool :=
  gitignore_rules.any (fun rule =>
    globMatch rule (basename path) ||
      (fs.isDir path && globMatch rule (basename path ++ ['/'])))

/-- Claim C2 counterexample: for the directory "build" and the single
rule "*/", the claim's matcher (rule as the glob pattern in case (b))
matches, but the code's `should_ignore` — which passes basename + "/" as
the fnmatch pattern and the rule as the string — returns false. -/
theorem gitignore_match_cex :
    should_ignore fsC2 "build".toList ["*/".toList] = false
      ∧ should_ignore_spec fsC2 "build".toList ["*/".toList] = true := by
  refine ⟨by decide, by decide⟩

/-- Claim C2 (amended): an entry matches the rule set iff there is a rule
P such that either (a) the entry's basename glob-matches P (P as the
pattern), or (b) the entry is a directory and the rule string P
glob-matches the pattern formed by basename + "/" — in case (b) the
pattern and string roles are swapped relative to case (a). -/
theorem gitignore_match_swapped (fs : FS) (path : List Char) (rules : List (List Char)) :
    should_ignore fs path rules = true ↔
      ∃ rule ∈ rules, globMatch rule (basename path) = true
        ∨ (fs.isDir path = true ∧ globMatch (basename path ++ ['/']) rule = true) := by
  simp [should_ignore]

/-- Filesystem whose root gitignore file contains a blank line and a
comment line. -/
def fsC3 : FS where
  isDir := fun _ => false
  isFile := fun _ => false
  pathExists := fun _ => true
  walk := fun _ => []
  readFile := fun p => if p == "/.gitignore".toList then some "a.txt\n\n#c\nb.txt\n".toList else none

/-- Claim C3 counterexample: the gitignore content "a.txt\n\n#c\nb.txt\n"
has a blank line among its stripped lines, yet no empty-string rule is
stored: blank lines are excluded, not only '#'-lines. -/
theorem gitignore_blank_cex :
    ([] ∈ (splitLines "a.txt\n\n#c\nb.txt\n".toList).map stripLine)
      ∧ read_gitignore fsC3 [] = ["a.txt".toList, "b.txt".toList]
      ∧ [] ∉ read_gitignore fsC3 [] := by
  refine ⟨by decide, by decide, by decide⟩

lemma gitignoreFilter_eq (lines : List (List Char)) :
    gitignoreFilter lines =
      (lines.map stripLine).filter (fun l => !l.isEmpty && l.head? != some '#') := by
  induction lines with
  | nil => rfl
  | cons a rest iha =>
    cases hs : stripLine a with
    | nil => simp [gitignoreFilter, hs, iha, List.filter]
    | cons c cs =>
      by_cases hc : c = '#'
      · subst hc; simp [gitignoreFilter, hs, iha, List.filter]
      · have hb : (some c != some '#') = true := by simp [bne_iff_ne, hc]
        simp [gitignoreFilter, hs, iha, List.filter, hc, hb]

/-- Claim C3 (amended): a line of a loaded gitignore file is retained as
a rule iff, after stripping line terminators, it is nonempty and its
first character is not '#': blank lines are excluded along with comment
lines, not retained as empty-string rules. -/
theorem gitignore_line_retention (lines : List (List Char)) (l : List Char) :
    l ∈ gitignoreFilter lines ↔
      (∃ raw ∈ lines, stripLine raw = l) ∧ l ≠ [] ∧ l.head? ≠ some '#' := by
  rw [gitignoreFilter_eq]
  constructor
  · intro hmem
    rw [List.mem_filter] at hmem
    obtain ⟨hmap, hcond⟩ := hmem
    obtain ⟨raw, hraw, hst⟩ := List.mem_map.mp hmap
    rw [Bool.and_eq_true] at hcond
    refine ⟨⟨raw, hraw, hst⟩, ?_, ?_⟩
    · intro hl; rw [hl] at hcond; simp at hcond
    · intro hh; rw [hh] at hcond; simp at hcond
  · rintro ⟨⟨raw, hraw, hst⟩, hne, hhd⟩
    rw [List.mem_filter]
    refine ⟨List.mem_map.mpr ⟨raw, hraw, hst⟩, ?_⟩
    rw [Bool.and_eq_true]
    refine ⟨by simp [hne], by simp [bne_iff_ne, hhd]⟩

/-- Claim C7 (code bug): when a named output file is requested and its
open fails, `main` ends up with an invalid writer and does not abort:
the sink is `none` and the abort flag is `false`, so processing proceeds
and every subsequent `fprintf` goes through the invalid sink. -/
theorem output_sink_not_failclosed :
    setupWriter "out.txt".toList none = (none, false) := by decide

/-- Claim C10: for a root path with no '/' component (such as the
default root "." or a bare filename), the parent path is the empty
string, so the gitignore rules for that root are loaded from the path
"/.gitignore" at the filesystem root. -/
theorem rootless_parent_gitignore (fs : FS) (r : List Char) (h : '/' ∉ r) :
    parentPath r = []
      ∧ read_gitignore fs (parentPath r) = parseGitignore (fs.readFile "/.gitignore".toList) := by
  have hc : r.contains '/' = false := by
    rw [Bool.eq_false_iff]
    intro hcc
    obtain ⟨b, hb, hbeq⟩ := List.contains_iff_exists_mem_beq.mp hcc
    rw [beq_iff_eq] at hbeq
    exact h (by rw [hbeq]; exact hb)
  have hp : parentPath r = [] := by
    unfold parentPath
    rw [if_neg (by rw [hc]; simp)]
  refine ⟨hp, ?_⟩
  rw [hp]
  rfl

/-- Filesystem for the C10 witness. -/
def fsC10 : FS where
  isDir := fun _ => false
  isFile := fun _ => false
  pathExists := fun _ => true
  walk := fun _ => []
  readFile := fun p => if p == "/.gitignore".toList then some "x.o\n".toList else none

theorem rootless_parent_gitignore_witness :
    ('/' ∉ ['.'])
      ∧ (parentPath ['.'] = []
        ∧ read_gitignore fsC10 (parentPath ['.']) =
            parseGitignore (fsC10.readFile "/.gitignore".toList)) :=
  ⟨by decide, rootless_parent_gitignore fsC10 ['.'] (by decide)⟩

/-- Claim C6: a root that resolves to a regular file goes straight to
`process_file` — no filter parameter is consulted — and is emitted as a
document whenever its content is non-empty. -/
theorem file_root_bypasses_filters (fs : FS) (idx : Nat) (p : List Char)
    (ext : List (List Char)) (ih ig : Bool) (rules ipat : List (List Char)) (xml : Bool)
    (hf : fs.isFile p = true) :
    process_path fs idx p ext ih ig rules ipat xml = process_file fs idx p xml
      ∧ (read_file_content fs p ≠ [] →
          (process_file fs idx p xml).1 = [(print_path idx p (read_file_content fs p) xml).1]) := by
  constructor
  · unfold process_path; rw [if_pos hf]
  · intro hc
    unfold process_file
    rw [if_neg (by simp [List.isEmpty_eq_true]; exact hc)]

/-- Filesystem with "f" a regular file of content "hi". -/
def fsC6 : FS where
  isDir := fun _ => false
  isFile := fun p => p == "f".toList
  pathExists := fun _ => true
  walk := fun _ => []
  readFile := fun p => if p == "f".toList then some "hi".toList else none

theorem file_root_bypasses_filters_witness :
    (fsC6.isFile "f".toList = true)
      ∧ process_path fsC6 3 "f".toList ["x".toList] true false ["f".toList] ["f".toList] true
          = process_file fsC6 3 "f".toList true
      ∧ (process_file fsC6 3 "f".toList true).1
          = [(print_path 3 "f".toList (read_file_content fsC6 "f".toList) true).1] :=
  ⟨by decide,
   (file_root_bypasses_filters fsC6 3 "f".toList ["x".toList] true false ["f".toList] ["f".toList]
      true (by decide)).1,
   (file_root_bypasses_filters fsC6 3 "f".toList ["x".toList] true false ["f".toList] ["f".toList]
      true (by decide)).2 (by decide)⟩

/-- The admission predicate applied by `process_directory`'s loop to each
enumerated entry: not a directory, not rejected by `should_ignore_file`,
and not rejected by the gitignore check. -/
def dirAdmits (fs : FS) (ext : List (List Char)) (ih ig : Bool)
    (rules ipat : List (List Char)) (e : List Char) : Bool :=
  !fs.isDir e && !should_ignore_file (basename e) ipat ext ih
    && !(!ig && should_ignore fs e rules)

/-- Processing of a list of already-admitted files, in order. -/
def processAdmitted (fs : FS) (xml : Bool) : List (List Char) → Nat → List OutItem × Nat
  | [], idx => ([], idx)
  | e :: es, idx =>
    ((process_file fs idx e xml).1 ++
       (processAdmitted fs xml es (process_file fs idx e xml).2).1,
     (processAdmitted fs xml es (process_file fs idx e xml).2).2)

lemma should_ignore_file_eq (fn : List Char) (ipat ext : List (List Char)) (ih : Bool) :
    should_ignore_file fn ipat ext ih =
      ((!ih && isHidden fn) || ipat.any (fun pat => globMatch pat fn)
        || (!ext.isEmpty && !(ext.any (fun x => x.isSuffixOf fn)))) := by
  unfold should_ignore_file
  cases h1 : (!ih && isHidden fn) <;> cases h2 : ipat.any (fun pat => globMatch pat fn) <;>
    cases h3 : ext.isEmpty <;> simp [h1, h2, h3]

lemma processEntries_eq_filter (fs : FS) (ext : List (List Char)) (ih ig : Bool)
    (rules ipat : List (List Char)) (xml : Bool) :
    ∀ (es : List (List Char)) (idx : Nat),
      processEntries fs ext ih ig rules ipat xml es idx =
        processAdmitted fs xml (es.filter (fun e => dirAdmits fs ext ih ig rules ipat e)) idx := by
  intro es
  induction es with
  | nil => intro idx; rfl
  | cons e es ihe =>
    intro idx
    rw [List.filter_cons]
    unfold processEntries
    by_cases h1 : fs.isDir e = true
    · rw [if_pos h1]
      rw [if_neg (by simp [dirAdmits, h1])]
      exact ihe idx
    · rw [if_neg h1]
      by_cases h2 : should_ignore_file (basename e) ipat ext ih = true
      · rw [if_pos h2]
        rw [if_neg (by simp [dirAdmits, h2])]
        exact ihe idx
      · rw [if_neg h2]
        by_cases h3 : (!ig && should_ignore fs e rules) = true
        · rw [if_pos h3]
          rw [if_neg (by
            simp [dirAdmits, h1, h2]
            cases hig : ig <;> cases hsi : should_ignore fs e rules <;> simp_all)]
          exact ihe idx
        · rw [if_neg h3]
          rw [if_pos (by
            simp [dirAdmits, h1, h2]
            cases hig : ig <;> cases hsi : should_ignore fs e rules <;> simp_all)]
          unfold processAdmitted
          rw [ihe]

/-- Claim C1: a candidate produced by directory enumeration is admitted
iff all four checks pass — (1) not hidden or hidden inclusion enabled,
(2) the filename glob-matches no explicit ignore pattern, (3) gitignore
honoring disabled or the rule set does not match, (4) the extension list
is empty or some listed extension is a literal suffix of the filename —
and `process_directory`'s loop processes exactly the admitted entries. -/
theorem filter_chain_admission :
    (∀ (fs : FS) (ext : List (List Char)) (ih ig : Bool) (rules ipat : List (List Char))
        (e : List Char), fs.isDir e = false →
      (dirAdmits fs ext ih ig rules ipat e = true ↔
        ((isHidden (basename e) = false ∨ ih = true)
          ∧ (∀ pat ∈ ipat, globMatch pat (basename e) = false)
          ∧ (ig = true ∨ should_ignore fs e rules = false)
          ∧ (ext = [] ∨ ∃ x ∈ ext, x.isSuffixOf (basename e) = true))))
    ∧ (∀ (fs : FS) (ext : List (List Char)) (ih ig : Bool) (rules ipat : List (List Char))
        (xml : Bool) (es : List (List Char)) (idx : Nat),
        processEntries fs ext ih ig rules ipat xml es idx =
          processAdmitted fs xml (es.filter (fun e => dirAdmits fs ext ih ig rules ipat e)) idx) := by
  constructor
  · intro fs ext ih ig rules ipat e hfile
    unfold dirAdmits
    rw [should_ignore_file_eq, hfile]
    cases hA : isHidden (basename e) <;> cases hih : ih <;>
      cases hB : ipat.any (fun pat => globMatch pat (basename e)) <;>
      cases hC : should_ignore fs e rules <;> cases hig : ig <;>
      cases hD : ext.isEmpty <;> cases hE : ext.any (fun x => x.isSuffixOf (basename e)) <;>
      simp_all [List.any_eq_true, List.any_eq_false, List.isEmpty_eq_true, List.isEmpty_eq_false]
  · intro fs ext ih ig rules ipat xml es idx
    exact processEntries_eq_filter fs ext ih ig rules ipat xml es idx

/-- Filesystem for the C1 witness: "d/ok.txt" a plain file. -/
def fsC1 : FS where
  isDir := fun _ => false
  isFile := fun _ => true
  pathExists := fun _ => true
  walk := fun _ => []
  readFile := fun _ => none

theorem filter_chain_admission_witness :
    (fsC1.isDir "d/ok.txt".toList = false)
      ∧ (dirAdmits fsC1 [".txt".toList] false false ["x.o".toList] ["*.log".toList]
            "d/ok.txt".toList = true ↔
          ((isHidden (basename "d/ok.txt".toList) = false ∨ false = true)
            ∧ (∀ pat ∈ ["*.log".toList], globMatch pat (basename "d/ok.txt".toList) = false)
            ∧ (false = true ∨ should_ignore fsC1 "d/ok.txt".toList ["x.o".toList] = false)
            ∧ ([".txt".toList] = []
              ∨ ∃ x ∈ [".txt".toList], x.isSuffixOf (basename "d/ok.txt".toList) = true))) :=
  ⟨rfl,
   filter_chain_admission.1 fsC1 [".txt".toList] false false ["x.o".toList] ["*.log".toList]
     "d/ok.txt".toList rfl⟩

lemma should_ignore_nondir (fs : FS) (p : List Char) (rules : List (List Char))
    (h : fs.isDir p = false) :
    should_ignore fs p rules = rules.any (fun rule => globMatch rule (basename p)) := by
  unfold should_ignore
  simp [h]

lemma processEntries_skip_dirs (fs : FS) (ext : List (List Char)) (ih ig : Bool)
    (rules ipat : List (List Char)) (xml : Bool) :
    ∀ (es : List (List Char)) (idx : Nat),
      processEntries fs ext ih ig rules ipat xml es idx =
        processEntries fs ext ih ig rules ipat xml (es.filter (fun e => !fs.isDir e)) idx := by
  intro es
  induction es with
  | nil => intro idx; rfl
  | cons e es ihe =>
    intro idx
    rw [List.filter_cons]
    by_cases h1 : fs.isDir e = true
    · rw [if_neg (by simp [h1])]
      have hstep : processEntries fs ext ih ig rules ipat xml (e :: es) idx =
          processEntries fs ext ih ig rules ipat xml es idx := by
        simp only [processEntries]
        rw [if_pos h1]
      rw [hstep]
      exact ihe idx
    · rw [if_pos (by simp [h1])]
      simp only [processEntries]
      rw [if_neg h1, if_neg h1]
      by_cases h2 : should_ignore_file (basename e) ipat ext ih = true
      · rw [if_pos h2, if_pos h2]
        exact ihe idx
      · rw [if_neg h2, if_neg h2]
        by_cases h3 : (!ig && should_ignore fs e rules) = true
        · rw [if_pos h3, if_pos h3]
          exact ihe idx
        · rw [if_neg h3, if_neg h3]
          simp only [ihe]

/-- Claim C9: the gitignore check's outcome for a non-directory candidate
depends only on its basename (and the rules); for non-directories the
directory branch of `should_ignore` is dead; and `process_directory`'s
loop drops directory entries before any filtering, so gitignore rules
never prevent traversal and a rule naming an ancestor directory excludes
no file beneath it. -/
theorem gitignore_basename_only :
    (∀ (fs fs' : FS) (p p' : List Char) (rules : List (List Char)),
        fs.isDir p = false → fs'.isDir p' = false → basename p = basename p' →
        should_ignore fs p rules = should_ignore fs' p' rules)
    ∧ (∀ (fs : FS) (p : List Char) (rules : List (List Char)), fs.isDir p = false →
        should_ignore fs p rules = rules.any (fun rule => globMatch rule (basename p)))
    ∧ (∀ (fs : FS) (ext : List (List Char)) (ih ig : Bool) (rules ipat : List (List Char))
        (xml : Bool) (es : List (List Char)) (idx : Nat),
        processEntries fs ext ih ig rules ipat xml es idx =
          processEntries fs ext ih ig rules ipat xml (es.filter (fun e => !fs.isDir e)) idx) := by
  refine ⟨?_, ?_, ?_⟩
  · intro fs fs' p p' rules h1 h2 hbase
    rw [should_ignore_nondir fs p rules h1, should_ignore_nondir fs' p' rules h2, hbase]
  · intro fs p rules h
    exact should_ignore_nondir fs p rules h
  · intro fs ext ih ig rules ipat xml es idx
    exact processEntries_skip_dirs fs ext ih ig rules ipat xml es idx

/-- Filesystem in which "build" is a directory and "build/main.c" a file
beneath it. -/
def fsC9a : FS where
  isDir := fun p => p == "build".toList
  isFile := fun p => !(p == "build".toList)
  pathExists := fun _ => true
  walk := fun _ => []
  readFile := fun _ => none

/-- A second filesystem, with a bare file "main.c". -/
def fsC9b : FS where
  isDir := fun _ => false
  isFile := fun _ => true
  pathExists := fun _ => true
  walk := fun _ => []
  readFile := fun _ => none

theorem gitignore_basename_only_witness :
    (fsC9a.isDir "build/main.c".toList = false)
      ∧ should_ignore fsC9a "build/main.c".toList ["build/".toList]
          = should_ignore fsC9b "main.c".toList ["build/".toList]
      ∧ should_ignore fsC9a "build/main.c".toList ["build/".toList] = false :=
  ⟨by decide,
   gitignore_basename_only.1 fsC9a fsC9b "build/main.c".toList "main.c".toList
     ["build/".toList] (by decide) (by decide) (by decide),
   by decide⟩

/-- The indices carried by the XML documents of an output stream, in
emission order. -/
def xmlIndices : List OutItem → List Nat
  | [] => []
  | OutItem.xmlDoc i _ _ :: rest => i :: xmlIndices rest
  | _ :: rest => xmlIndices rest

lemma xmlIndices_append (a b : List OutItem) :
    xmlIndices (a ++ b) = xmlIndices a ++ xmlIndices b := by
  induction a with
  | nil => rfl
  | cons x rest iha => cases x <;> simp [xmlIndices, iha]

lemma process_file_idx (fs : FS) (p : List Char) (idx : Nat) :
    ∃ k, (process_file fs idx p true).2 = idx + k
      ∧ xmlIndices (process_file fs idx p true).1 = List.range' idx k := by
  unfold process_file
  by_cases h : (read_file_content fs p).isEmpty
  · rw [if_pos h]
    exact ⟨0, rfl, rfl⟩
  · rw [if_neg h]
    refine ⟨1, rfl, ?_⟩
    simp [print_path, xmlIndices, List.range']

lemma processEntries_idx (fs : FS) (ext : List (List Char)) (ih ig : Bool)
    (rules ipat : List (List Char)) :
    ∀ (es : List (List Char)) (idx : Nat),
      ∃ k, (processEntries fs ext ih ig rules ipat true es idx).2 = idx + k
        ∧ xmlIndices (processEntries fs ext ih ig rules ipat true es idx).1 =
            List.range' idx k := by
  intro es
  induction es with
  | nil => intro idx; exact ⟨0, rfl, rfl⟩
  | cons e es ihe =>
    intro idx
    unfold processEntries
    by_cases h1 : fs.isDir e = true
    · rw [if_pos h1]; exact ihe idx
    · rw [if_neg h1]
      by_cases h2 : should_ignore_file (basename e) ipat ext ih = true
      · rw [if_pos h2]; exact ihe idx
      · rw [if_neg h2]
        by_cases h3 : (!ig && should_ignore fs e rules) = true
        · rw [if_pos h3]; exact ihe idx
        · rw [if_neg h3]
          obtain ⟨k1, hk1, hx1⟩ := process_file_idx fs e idx
          obtain ⟨k2, hk2, hx2⟩ := ihe (process_file fs idx e true).2
          refine ⟨k1 + k2, ?_, ?_⟩
          · rw [hk2, hk1]; omega
          · rw [xmlIndices_append, hx1, hx2, hk1, List.range'_append_1, Nat.add_comm k2 k1]

lemma process_path_idx (fs : FS) (p : List Char) (ext : List (List Char)) (ih ig : Bool)
    (rules ipat : List (List Char)) (idx : Nat) :
    ∃ k, (process_path fs idx p ext ih ig rules ipat true).2 = idx + k
      ∧ xmlIndices (process_path fs idx p ext ih ig rules ipat true).1 = List.range' idx k := by
  unfold process_path
  by_cases h1 : fs.isFile p = true
  · rw [if_pos h1]; exact process_file_idx fs p idx
  · rw [if_neg h1]
    by_cases h2 : fs.isDir p = true
    · rw [if_pos h2]
      unfold process_directory
      exact processEntries_idx fs ext ih ig rules ipat (fs.walk p) idx
    · rw [if_neg h2]; exact ⟨0, rfl, rfl⟩

lemma mainLoop_idx (fs : FS) (first : List Char) (ext : List (List Char)) (ih ig : Bool)
    (ipat : List (List Char)) :
    ∀ (ps rules : List (List Char)) (idx : Nat),
      ∃ k, (mainLoop fs first ext ih ig true ipat ps rules idx).2.1 = idx + k
        ∧ xmlIndices (mainLoop fs first ext ih ig true ipat ps rules idx).1 =
            List.range' idx k := by
  intro ps
  induction ps with
  | nil => intro rules idx; exact ⟨0, rfl, rfl⟩
  | cons p rest ihp =>
    intro rules idx
    simp only [mainLoop]
    by_cases h1 : fs.pathExists p = true
    · rw [if_pos h1]
      obtain ⟨k1, hk1, hx1⟩ :=
        process_path_idx fs p ext ih ig
          (if !ig then rules ++ read_gitignore fs (parentPath p) else rules) ipat idx
      obtain ⟨k2, hk2, hx2⟩ :=
        ihp (if !ig then rules ++ read_gitignore fs (parentPath p) else rules)
          (process_path fs idx p ext ih ig
            (if !ig then rules ++ read_gitignore fs (parentPath p) else rules) ipat true).2
      refine ⟨k1 + k2, ?_, ?_⟩
      · rw [hk2, hk1]; omega
      · rw [xmlIndices_append, xmlIndices_append, hx1, hx2, hk1]
        have hpre : xmlIndices (if true && (p == first) then [OutItem.openTag] else []) = [] := by
          by_cases hq : (p == first) = true <;> simp [hq, xmlIndices]
        rw [hpre, List.nil_append, List.range'_append_1, Nat.add_comm k2 k1]
    · rw [if_neg h1]; exact ⟨0, rfl, rfl⟩

/-- Claim C5: in XML mode the document indices of a whole run form the
exact sequence 1, 2, 3, ... in emission order — shared across all roots,
never reset, reused, or skipped — and an admitted file whose content is
empty after reading produces no document and consumes no index. -/
theorem xml_indices_sequence :
    (∀ (fs : FS) (paths ext ipat : List (List Char)) (ih ig : Bool),
      xmlIndices (filesToPrompt fs paths ext ipat ih ig true).1 =
        List.range' 1 (xmlIndices (filesToPrompt fs paths ext ipat ih ig true).1).length)
    ∧ (∀ (fs : FS) (idx : Nat) (p : List Char), read_file_content fs p = [] →
        process_file fs idx p true = ([], idx)) := by
  constructor
  · intro fs paths ext ipat ih ig
    unfold filesToPrompt
    obtain ⟨k, _, hx⟩ :=
      mainLoop_idx fs ((if paths.isEmpty then [['.']] else paths).headD []) ext ih ig ipat
        (if paths.isEmpty then [['.']] else paths) [] 1
    rw [hx, List.length_range']
  · intro fs idx p h
    unfold process_file
    rw [if_pos (by simp [h])]

/-- Filesystem with regular files "a", "b" (non-empty) and "e" (empty). -/
def fsC5 : FS where
  isDir := fun _ => false
  isFile := fun p => p == "a".toList || p == "b".toList || p == "e".toList
  pathExists := fun _ => true
  walk := fun _ => []
  readFile := fun p =>
    if p == "a".toList then some "x".toList
    else if p == "b".toList then some "y".toList
    else if p == "e".toList then some [] else none

theorem xml_indices_sequence_witness :
    xmlIndices (filesToPrompt fsC5 ["a".toList, "b".toList] [] [] false true true).1 =
        List.range' 1
          (xmlIndices (filesToPrompt fsC5 ["a".toList, "b".toList] [] [] false true true).1).length
      ∧ (read_file_content fsC5 "e".toList = []
        ∧ process_file fsC5 7 "e".toList true = ([], 7)) :=
  ⟨xml_indices_sequence.1 fsC5 ["a".toList, "b".toList] [] [] false true,
   by decide,
   xml_indices_sequence.2 fsC5 7 "e".toList (by decide)⟩

/-- Filesystem in which "a" is a regular file with empty content. -/
def fsC4 : FS where
  isDir := fun _ => false
  isFile := fun p => p == "a".toList
  pathExists := fun _ => true
  walk := fun _ => []
  readFile := fun _ => some []

/-- Claim C4 counterexample: with the root list ["a", "a"] — the first
root repeated — the XML run emits the "<documents>\n" line twice (once
per root comparing equal to `paths[0]`), so the output does not contain
exactly one such line. -/
theorem xml_envelope_cex :
    (filesToPrompt fsC4 ["a".toList, "a".toList] [] [] false true true).1 =
        [OutItem.openTag, OutItem.openTag, OutItem.closeTag]
      ∧ (splitLines (renderItems
            (filesToPrompt fsC4 ["a".toList, "a".toList] [] [] false true true).1)).count
          "<documents>".toList = 2 := by
  refine ⟨by decide, by decide⟩

lemma process_file_no_tags (fs : FS) (idx : Nat) (p : List Char) (xml : Bool) :
    ∀ x ∈ (process_file fs idx p xml).1, x ≠ OutItem.openTag ∧ x ≠ OutItem.closeTag := by
  intro x hx
  unfold process_file at hx
  by_cases h : (read_file_content fs p).isEmpty
  · rw [if_pos h] at hx; simp at hx
  · rw [if_neg h] at hx
    by_cases hxml : xml = true
    · simp [print_path, hxml] at hx
      simp [hx]
    · simp [print_path, hxml] at hx
      simp [hx]

lemma processEntries_no_tags (fs : FS) (ext : List (List Char)) (ih ig : Bool)
    (rules ipat : List (List Char)) (xml : Bool) :
    ∀ (es : List (List Char)) (idx : Nat) (x : OutItem),
      x ∈ (processEntries fs ext ih ig rules ipat xml es idx).1 →
      x ≠ OutItem.openTag ∧ x ≠ OutItem.closeTag := by
  intro es
  induction es with
  | nil => intro idx x hx; simp [processEntries] at hx
  | cons e es ihe =>
    intro idx x hx
    unfold processEntries at hx
    by_cases h1 : fs.isDir e = true
    · rw [if_pos h1] at hx; exact ihe _ _ hx
    · rw [if_neg h1] at hx
      by_cases h2 : should_ignore_file (basename e) ipat ext ih = true
      · rw [if_pos h2] at hx; exact ihe _ _ hx
      · rw [if_neg h2] at hx
        by_cases h3 : (!ig && should_ignore fs e rules) = true
        · rw [if_pos h3] at hx; exact ihe _ _ hx
        · rw [if_neg h3] at hx
          rcases List.mem_append.mp hx with hx' | hx'
          · exact process_file_no_tags fs idx e xml x hx'
          · exact ihe _ _ hx'

lemma process_path_no_tags (fs : FS) (idx : Nat) (p : List Char) (ext : List (List Char))
    (ih ig : Bool) (rules ipat : List (List Char)) (xml : Bool) :
    ∀ x ∈ (process_path fs idx p ext ih ig rules ipat xml).1,
      x ≠ OutItem.openTag ∧ x ≠ OutItem.closeTag := by
  intro x hx
  unfold process_path at hx
  by_cases h1 : fs.isFile p = true
  · rw [if_pos h1] at hx; exact process_file_no_tags fs idx p xml x hx
  · rw [if_neg h1] at hx
    by_cases h2 : fs.isDir p = true
    · rw [if_pos h2] at hx
      unfold process_directory at hx
      exact processEntries_no_tags fs ext ih ig rules ipat xml _ _ x hx
    · rw [if_neg h2] at hx; simp at hx

lemma mainLoop_tail (fs : FS) (first : List Char) (ext : List (List Char)) (ih ig : Bool)
    (ipat : List (List Char)) :
    ∀ (ps rules : List (List Char)) (idx : Nat),
      (∀ p ∈ ps, fs.pathExists p = true) → first ∉ ps →
      ∃ body, (mainLoop fs first ext ih ig true ipat ps rules idx).1 =
          body ++ [OutItem.closeTag]
        ∧ (∀ x ∈ body, x ≠ OutItem.openTag ∧ x ≠ OutItem.closeTag) := by
  intro ps
  induction ps with
  | nil =>
    intro rules idx _ _
    exact ⟨[], rfl, by simp⟩
  | cons p rest ihp =>
    intro rules idx hex hnd
    have hp : fs.pathExists p = true := hex p (List.mem_cons_self p rest)
    have hne : (p == first) = false := by
      rw [beq_eq_false_iff_ne]
      intro h
      exact hnd (h ▸ List.mem_cons_self p rest)
    obtain ⟨body, hb1, hb2⟩ :=
      ihp (if !ig then rules ++ read_gitignore fs (parentPath p) else rules)
        (process_path fs idx p ext ih ig
          (if !ig then rules ++ read_gitignore fs (parentPath p) else rules) ipat true).2
        (fun q hq => hex q (List.mem_cons_of_mem _ hq))
        (fun hmem => hnd (List.mem_cons_of_mem _ hmem))
    refine ⟨(process_path fs idx p ext ih ig
        (if !ig then rules ++ read_gitignore fs (parentPath p) else rules) ipat true).1 ++ body,
      ?_, ?_⟩
    · simp only [mainLoop]
      rw [if_pos hp]
      rw [hb1]
      simp [hne, List.append_assoc]
    · intro x hx
      rcases List.mem_append.mp hx with hx' | hx'
      · exact process_path_no_tags fs idx p ext ih ig _ ipat true x hx'
      · exact hb2 x hx'

/-- Claim C4 (amended): in XML mode, "<documents>\n" is emitted once per
root whose path string equals the first root's path (so exactly once at
the start when no later root repeats the first root's path), and — when
every root exists so the run completes — "</documents>\n" is emitted
exactly once, after the last root, regardless of how many documents were
produced, including zero. -/
theorem xml_envelope_once (fs : FS) (first : List Char) (rest ext ipat : List (List Char))
    (ih ig : Bool)
    (hex : ∀ p ∈ first :: rest, fs.pathExists p = true) (hnd : first ∉ rest) :
    ∃ body, (filesToPrompt fs (first :: rest) ext ipat ih ig true).1 =
        OutItem.openTag :: (body ++ [OutItem.closeTag])
      ∧ OutItem.openTag ∉ body ∧ OutItem.closeTag ∉ body := by
  have hfirst : fs.pathExists first = true := hex first (List.mem_cons_self first rest)
  obtain ⟨body, hb1, hb2⟩ :=
    mainLoop_tail fs first ext ih ig ipat rest
      (if !ig then [] ++ read_gitignore fs (parentPath first) else [])
      (process_path fs 1 first ext ih ig
        (if !ig then [] ++ read_gitignore fs (parentPath first) else []) ipat true).2
      (fun q hq => hex q (List.mem_cons_of_mem _ hq)) hnd
  refine ⟨(process_path fs 1 first ext ih ig
      (if !ig then [] ++ read_gitignore fs (parentPath first) else []) ipat true).1 ++ body,
    ?_, ?_, ?_⟩
  · unfold filesToPrompt
    simp only [List.isEmpty_cons, Bool.false_eq_true, if_false, List.headD_cons]
    simp only [mainLoop]
    rw [if_pos hfirst]
    rw [hb1]
    simp [List.append_assoc]
  · intro hmem
    rcases List.mem_append.mp hmem with hx' | hx'
    · exact (process_path_no_tags fs 1 first ext ih ig _ ipat true _ hx').1 rfl
    · exact (hb2 _ hx').1 rfl
  · intro hmem
    rcases List.mem_append.mp hmem with hx' | hx'
    · exact (process_path_no_tags fs 1 first ext ih ig _ ipat true _ hx').2 rfl
    · exact (hb2 _ hx').2 rfl

/-- Filesystem with distinct root files "a" and "b". -/
def fsC4w : FS where
  isDir := fun _ => false
  isFile := fun p => p == "a".toList || p == "b".toList
  pathExists := fun _ => true
  walk := fun _ => []
  readFile := fun p => if p == "a".toList then some "x".toList else some []

theorem xml_envelope_once_witness :
    (∀ p ∈ ("a".toList :: ["b".toList]), fsC4w.pathExists p = true)
      ∧ ("a".toList ∉ ["b".toList])
      ∧ ∃ body, (filesToPrompt fsC4w ("a".toList :: ["b".toList]) [] [] false true true).1 =
          OutItem.openTag :: (body ++ [OutItem.closeTag])
        ∧ OutItem.openTag ∉ body ∧ OutItem.closeTag ∉ body :=
  ⟨by decide, by decide,
   xml_envelope_once fsC4w "a".toList ["b".toList] [] [] false true (by decide) (by decide)⟩
